import Mathlib

/-!
Verification of the bp-std wallet-primitives library against its
natural-language specification.  Rust sources are shallowly embedded as
Lean definitions: machine integers become `Nat` (with explicit masking
where overflow or truncation matters), fallible functions return
`Except`, and panics (`todo!`, failed asserts) are modelled as `none` of
an `Option`-wrapped result.  External dependencies (the `bp`, `amplify`,
`commit_verify` and `sha2` crates) are modelled from their documented
behaviour; every such model is marked in its doc comment.
-/

namespace BpStd

/-! ## Timelocks (psbt/src/timelocks.rs) -/

/-- Threshold separating block-height locktimes from timestamp locktimes. -/
def LOCKTIME_THRESHOLD : Nat := 500000000

/-- Error constructing a timelock from the provided value. -/
structure InvalidTimelock where
  value : Nat
deriving DecidableEq

/-- Modelled from the external bp crate: a consensus `nLockTime` value is
height-based exactly when it is below `LOCKTIME_THRESHOLD`. -/
def LockTime.is_height_based (t : Nat) : Bool := t < LOCKTIME_THRESHOLD

/-- Value of a transaction `nTimeLock` field meant to hold a UNIX timestamp. -/
structure LockTimestamp where
  inner : Nat
deriving DecidableEq

/-- Value of a transaction `nTimeLock` field meant to hold a block height. -/
structure LockHeight where
  inner : Nat
deriving DecidableEq

/-- Embedding of `LockTimestamp::try_from_consensus_u32`. -/
def LockTimestamp.try_from_consensus_u32 (lock_time : Nat) :
    Except InvalidTimelock LockTimestamp :=
  if ¬ (LockTime.is_height_based lock_time) then .error ⟨lock_time⟩
  else .ok ⟨lock_time⟩

/-- Embedding of `LockHeight::try_from_consensus_u32`. -/
def LockHeight.try_from_consensus_u32 (lock_time : Nat) :
    Except InvalidTimelock LockHeight :=
  if ¬ (LockTime.is_height_based lock_time) then .error ⟨lock_time⟩
  else .ok ⟨lock_time⟩

/-- Embedding of `LockTimestamp::from_unix_timestamp`, which documents the
intended range of `LockTimestamp` values. -/
def LockTimestamp.from_unix_timestamp (timestamp : Nat) : Option LockTimestamp :=
  if timestamp < LOCKTIME_THRESHOLD then none else some ⟨timestamp⟩

/-! ## Sighash types (psbt/src/sigtypes.rs) -/

/-- Non-standard sighash type error. -/
structure NonStandardSighashType where
  value : Nat
deriving DecidableEq

/-- Sighash flag selecting which outputs a signature commits to. -/
inductive SighashFlag
  | All
  | None
  | Single
deriving DecidableEq

/-- Numeric value of a `SighashFlag` (`flag as u8`). -/
def SighashFlag.to_u8 : SighashFlag → Nat
  | .All => 0x01
  | .None => 0x02
  | .Single => 0x03

/-- A sighash type: flag plus the ANYONECANPAY bit. -/
structure SighashType where
  flag : SighashFlag
  anyone_can_pay : Bool
deriving DecidableEq

/-- Embedding of `SighashType::from_consensus`: the argument is masked with
`0x1f | 0x80` before being matched against the six standard values. -/
def SighashType.from_consensus (n : Nat) : SighashType :=
  let mask : Nat := 0x1f ||| 0x80
  let m := n &&& mask
  if m = 0x01 then ⟨.All, false⟩
  else if m = 0x02 then ⟨.None, false⟩
  else if m = 0x03 then ⟨.Single, false⟩
  else if m = 0x81 then ⟨.All, true⟩
  else if m = 0x82 then ⟨.None, true⟩
  else if m = 0x83 then ⟨.Single, true⟩
  else if m &&& 0x80 = 0x80 then ⟨.All, true⟩
  else ⟨.All, false⟩

/-- Embedding of `SighashType::from_standard`: only the six standard values
are accepted, anything else is `NonStandardSighashType`. -/
def SighashType.from_standard (n : Nat) :
    Except NonStandardSighashType SighashType :=
  if n = 0x01 then .ok ⟨.All, false⟩
  else if n = 0x02 then .ok ⟨.None, false⟩
  else if n = 0x03 then .ok ⟨.Single, false⟩
  else if n = 0x81 then .ok ⟨.All, true⟩
  else if n = 0x82 then .ok ⟨.None, true⟩
  else if n = 0x83 then .ok ⟨.Single, true⟩
  else .error ⟨n⟩

/-- Embedding of `SighashType::into_u8`: the flag value with the
ANYONECANPAY bit `or`-ed into bit 7. -/
def SighashType.into_u8 (s : SighashType) : Nat :=
  s.flag.to_u8 ||| ((if s.anyone_can_pay then 1 else 0) <<< 7)

/-- The six standard sighash byte values. -/
def standardSighashValues : List Nat := [0x01, 0x02, 0x03, 0x81, 0x82, 0x83]

/-- Helper: `from_consensus` as a function of the already-masked value. -/
def fromConsensusOnMasked (m : Nat) : SighashType :=
  if m = 0x01 then ⟨.All, false⟩
  else if m = 0x02 then ⟨.None, false⟩
  else if m = 0x03 then ⟨.Single, false⟩
  else if m = 0x81 then ⟨.All, true⟩
  else if m = 0x82 then ⟨.None, true⟩
  else if m = 0x83 then ⟨.Single, true⟩
  else if m &&& 0x80 = 0x80 then ⟨.All, true⟩
  else ⟨.All, false⟩

theorem from_consensus_eq_masked (n : Nat) :
    SighashType.from_consensus n = fromConsensusOnMasked (n &&& 0x9f) := rfl

end BpStd

namespace BpStd

/-! ## Theorems for claims C1, C4, C7 -/

/-- C1: the spec claims `LockHeight::try_from` and `LockTimestamp::try_from`
partition the u32 values at `LOCKTIME_THRESHOLD`, with `LockTimestamp`
accepting exactly the values `≥ 500000000`.  The code gives `LockTimestamp`
the same acceptance predicate as `LockHeight` (both require a height-based
value), contradicting the doc comment on `LockTimestamp` itself: at the
threshold `LockTimestamp::try_from` fails and at `0` it succeeds. -/
theorem c1_locktimestamp_gate_equals_lockheight_gate :
    (∀ t, (LockTimestamp.try_from_consensus_u32 t).isOk
      = (LockHeight.try_from_consensus_u32 t).isOk)
    ∧ LockTimestamp.try_from_consensus_u32 500000000 = .error ⟨500000000⟩
    ∧ LockTimestamp.try_from_consensus_u32 0 = .ok ⟨0⟩
    ∧ LockTimestamp.from_unix_timestamp 0 = none
    ∧ LockHeight.try_from_consensus_u32 500000000 = .error ⟨500000000⟩
    ∧ LockHeight.try_from_consensus_u32 499999999 = .ok ⟨499999999⟩ := by
  refine ⟨fun t => ?_, by rfl, by rfl, by rfl, by rfl, by rfl⟩
  simp only [LockTimestamp.try_from_consensus_u32, LockHeight.try_from_consensus_u32]
  split <;> rfl

/-- C4 counterexample: `34 = 0x22` is not one of the six standard sighash
values and has bit 7 clear, so the claim predicts `(All, false)`; the code
masks with `0x9f` first, obtaining `0x02`, and returns `(None, false)`. -/
theorem c4_counterexample_from_consensus_34 :
    34 ∉ standardSighashValues
    ∧ 34 &&& 0x80 = 0
    ∧ SighashType.from_consensus 34 = ⟨.None, false⟩
    ∧ SighashType.from_consensus 34 ≠ ⟨.All, false⟩ := by
  refine ⟨by decide, by decide, by rfl, by decide⟩

/-- C4 (amended): `from_consensus` depends only on `n & 0x9f`; whenever the
masked value is not one of the six standard values the result is
`(All, bit 7 of n)`; and each constructible `SighashType` is a fixed point
of `from_consensus` on its own byte encoding. -/
theorem c4_from_consensus_characterization :
    (∀ n, SighashType.from_consensus n = SighashType.from_consensus (n &&& 0x9f))
    ∧ (∀ n, (n &&& 0x9f) ∉ standardSighashValues →
        SighashType.from_consensus n = ⟨.All, decide (n &&& 0x80 = 0x80)⟩)
    ∧ (∀ s, SighashType.from_consensus (SighashType.into_u8 s) = s) := by
  refine ⟨fun n => ?_, fun n h => ?_, fun s => ?_⟩
  · rw [from_consensus_eq_masked, from_consensus_eq_masked, Nat.and_assoc]
    have h99 : (0x9f : Nat) &&& 0x9f = 0x9f := rfl
    rw [h99]
  · rw [from_consensus_eq_masked]
    simp only [standardSighashValues, List.mem_cons, List.not_mem_nil, or_false] at h
    push_neg at h
    obtain ⟨h1, h2, h3, h4, h5, h6⟩ := h
    have hm : (n &&& 0x9f) &&& 0x80 = n &&& 0x80 := by
      rw [Nat.and_assoc]
      have h98 : (0x9f : Nat) &&& 0x80 = 0x80 := rfl
      rw [h98]
    simp only [fromConsensusOnMasked, if_neg h1, if_neg h2, if_neg h3, if_neg h4,
      if_neg h5, if_neg h6, hm]
    by_cases hb : n &&& 0x80 = 0x80
    · simp [hb]
    · simp [hb]
  · obtain ⟨f, a⟩ := s
    cases f <;> cases a <;> rfl

/-- C4 witness: instantiation of the amended characterization at `n = 32`,
whose masked value `32` is non-standard and whose bit 7 is clear. -/
theorem c4_witness_from_consensus_32 :
    (32 &&& 0x9f) ∉ standardSighashValues
    ∧ SighashType.from_consensus 32 = ⟨.All, decide (32 &&& 0x80 = 0x80)⟩ :=
  ⟨by decide, c4_from_consensus_characterization.2.1 32 (by decide)⟩

/-- C7: `from_standard` inverts `into_u8` on every constructible
`SighashType`, and rejects every value outside the six standard ones with
`NonStandardSighashType` carrying that value. -/
theorem c7_from_standard_roundtrip :
    (∀ s, SighashType.from_standard (SighashType.into_u8 s) = .ok s)
    ∧ ∀ n, n ∉ standardSighashValues →
        SighashType.from_standard n = .error ⟨n⟩ := by
  constructor
  · intro s
    obtain ⟨f, a⟩ := s
    cases f <;> cases a <;> rfl
  · intro n h
    simp only [standardSighashValues, List.mem_cons, List.not_mem_nil, or_false] at h
    push_neg at h
    obtain ⟨h1, h2, h3, h4, h5, h6⟩ := h
    simp only [SighashType.from_standard, if_neg h1, if_neg h2, if_neg h3, if_neg h4,
      if_neg h5, if_neg h6]

/-- C7 witness: `5` is not a standard sighash value and is rejected. -/
theorem c7_witness_from_standard_5 :
    5 ∉ standardSighashValues ∧ SighashType.from_standard 5 = .error ⟨5⟩ :=
  ⟨by decide, c7_from_standard_roundtrip.2 5 (by decide)⟩

/-! ## Taproot script tree (derive/src/taptree.rs) -/

/-- Leaf script: version byte plus script bytes (structural model of the
external bc crate's `LeafScript`). -/
structure LeafScript where
  version : Nat
  script : List Nat
deriving DecidableEq

/-- Depth-annotated script-tree leaf.  The depth is a `u7` in the source. -/
structure LeafInfo where
  depth : Nat
  script : LeafScript
deriving DecidableEq

instance : Inhabited LeafInfo := ⟨⟨0, ⟨0, []⟩⟩⟩

/-- Free-constructor model of the BIP-341 tagged leaf hash
`TapLeafHash::with_leaf_script` of the external bc crate; no claim proved
here depends on properties of the underlying SHA-256. -/
inductive TapLeafHash
  | with_leaf_script (s : LeafScript)
deriving DecidableEq

/-- Free-constructor model of the external bc crate's `TapNodeHash`;
`ofLeaf` models the `From<TapLeafHash>` conversion used by `merkle_root`. -/
inductive TapNodeHash
  | ofLeaf (h : TapLeafHash)
deriving DecidableEq

/-- Modelled from the spec: the Merkle "buoy" of the external commit_verify
crate maintains a stack of pending node depths.  Pushing depth `d` merges
with an equal-depth top into a node of depth `d - 1`, recursively; a node
that reaches depth 0 completes the tree only when no other residual node
remains (a depth-0 leaf cannot merge further, so in a multi-leaf tree it
leaves the stack unchanged).  The level is the depth of the top node, with
0 for the empty buoy (`u7` defaults to zero). -/
structure MerkleBuoy where
  stack : List Nat
deriving DecidableEq

/-- Merge loop of `MerkleBuoy::push` (spec-modelled, see `MerkleBuoy`). -/
def MerkleBuoy.pushGo : List Nat → Nat → List Nat
  | s, 0 => if s.isEmpty then [0] else s
  | [], d + 1 => [d + 1]
  | top :: rest, d + 1 =>
    if top = d + 1 then MerkleBuoy.pushGo rest d else (d + 1) :: top :: rest

/-- Spec-modelled `MerkleBuoy::push`. -/
def MerkleBuoy.push (b : MerkleBuoy) (depth : Nat) : MerkleBuoy :=
  ⟨MerkleBuoy.pushGo b.stack depth⟩

/-- Spec-modelled `MerkleBuoy::level`: depth of the top node, 0 if empty. -/
def MerkleBuoy.level (b : MerkleBuoy) : Nat := b.stack.headD 0

/-- Error: adding leaves to an already finalized tap tree. -/
structure FinalizedTree
deriving DecidableEq

/-- Error: finalizing a tree whose buoy has not reached a single root. -/
structure UnfinalizedTree where
  level : Nat
deriving DecidableEq

/-- Embedding of `InvalidTree`. -/
inductive InvalidTree
  | Unfinalized (u : UnfinalizedTree)
  | MountainRange
deriving DecidableEq

/-- Embedding of `TapTreeBuilder`. -/
structure TapTreeBuilder where
  leaves : List LeafInfo
  buoy : MerkleBuoy
  finalized : Bool
deriving DecidableEq

/-- Embedding of `TapTreeBuilder::new`. -/
def TapTreeBuilder.new : TapTreeBuilder := ⟨[], ⟨[]⟩, false⟩

/-- Embedding of `TapTreeBuilder::push_leaf`; the mutated builder is
returned alongside the `Ok(self.finalized)` flag. -/
def TapTreeBuilder.push_leaf (b : TapTreeBuilder) (leaf : LeafInfo) :
    Except FinalizedTree (Bool × TapTreeBuilder) :=
  if b.finalized then .error ⟨⟩
  else
    let leaves := b.leaves ++ [leaf]
    let buoy := b.buoy.push leaf.depth
    let finalized := decide (buoy.level = 0)
    .ok (finalized, ⟨leaves, buoy, finalized⟩)

/-- Non-empty taproot script tree (embedding of `TapTree`). -/
structure TapTree where
  leaves : List LeafInfo
deriving DecidableEq

/-- Embedding of `TapTreeBuilder::finish`. -/
def TapTreeBuilder.finish (b : TapTreeBuilder) : Except UnfinalizedTree TapTree :=
  if ¬ b.finalized then .error ⟨b.buoy.level⟩ else .ok ⟨b.leaves⟩

/-- The `for leaf in leaves { builder.push_leaf(leaf)? }` loop of
`TapTree::from_leaves`. -/
def TapTree.push_all : TapTreeBuilder → List LeafInfo → Except FinalizedTree TapTreeBuilder
  | b, [] => .ok b
  | b, l :: ls =>
    match b.push_leaf l with
    | .error e => .error e
    | .ok (_, b1) => TapTree.push_all b1 ls

/-- Embedding of `TapTree::from_leaves`: push every leaf into a fresh
builder, then finish; a push failure maps to `MountainRange` (the
`From<FinalizedTree>` conversion on `InvalidTree`). -/
def TapTree.from_leaves (leaves : List LeafInfo) : Except InvalidTree TapTree :=
  match TapTree.push_all TapTreeBuilder.new leaves with
  | .error _ => .error .MountainRange
  | .ok b =>
    match b.finish with
    | .error u => .error (.Unfinalized u)
    | .ok t => .ok t

/-- Embedding of `TapTree::merkle_root`: the `todo!` panic on trees with
more than one leaf is modelled as `none`. -/
def TapTree.merkle_root (t : TapTree) : Option TapNodeHash :=
  if t.leaves.length = 1 then
    some (.ofLeaf (.with_leaf_script (t.leaves.headD default).script))
  else none

/-- Helper: computation rule for `push_leaf` on an unfinalized builder. -/
theorem push_leaf_eq_of_not_finalized (lv : List LeafInfo) (bu : MerkleBuoy)
    (l : LeafInfo) :
    TapTreeBuilder.push_leaf ⟨lv, bu, false⟩ l =
      .ok (decide ((bu.push l.depth).level = 0),
        ⟨lv ++ [l], bu.push l.depth, decide ((bu.push l.depth).level = 0)⟩) := rfl

/-- Helper: computation rule for `push_leaf` on a finalized builder. -/
theorem push_leaf_eq_of_finalized (lv : List LeafInfo) (bu : MerkleBuoy)
    (l : LeafInfo) :
    TapTreeBuilder.push_leaf ⟨lv, bu, true⟩ l = .error ⟨⟩ := rfl

/-- Helper: a builder produced by a successful `push_leaf` has its
`finalized` flag set exactly when its buoy level is zero. -/
theorem push_leaf_ok_finalized_iff {b : TapTreeBuilder} {l : LeafInfo}
    {f : Bool} {b1 : TapTreeBuilder} (h : b.push_leaf l = .ok (f, b1)) :
    b1.finalized = true ↔ b1.buoy.level = 0 := by
  obtain ⟨lv, bu, fin⟩ := b
  cases fin
  · rw [push_leaf_eq_of_not_finalized] at h
    simp only [Except.ok.injEq, Prod.mk.injEq] at h
    obtain ⟨-, h2⟩ := h
    subst h2
    simp
  · rw [push_leaf_eq_of_finalized] at h
    exact absurd h (by simp)

/-- Helper: after a nonempty run of successful pushes, the builder's
`finalized` flag agrees with its buoy level being zero. -/
theorem push_all_finalized_iff :
    ∀ (ls : List LeafInfo) (b0 b : TapTreeBuilder), ls ≠ [] →
      TapTree.push_all b0 ls = .ok b → (b.finalized = true ↔ b.buoy.level = 0) := by
  intro ls
  induction ls with
  | nil => intro b0 b h; exact absurd rfl h
  | cons l ls ih =>
    intro b0 b _ h
    unfold TapTree.push_all at h
    cases hp : b0.push_leaf l with
    | error e => rw [hp] at h; exact absurd h (by simp)
    | ok p =>
      rw [hp] at h
      obtain ⟨f, b1⟩ := p
      cases ls with
      | nil =>
        simp only [TapTree.push_all, Except.ok.injEq] at h
        subst h
        exact push_leaf_ok_finalized_iff hp
      | cons l2 ls2 => exact ih b1 b (by simp) h

/-- Helper: `push_all` appends the given leaves, in order, to the
builder's leaf list. -/
theorem push_all_leaves :
    ∀ (ls : List LeafInfo) (b0 b : TapTreeBuilder),
      TapTree.push_all b0 ls = .ok b → b.leaves = b0.leaves ++ ls := by
  intro ls
  induction ls with
  | nil =>
    intro b0 b h
    simp only [TapTree.push_all, Except.ok.injEq] at h
    subst h
    simp
  | cons l ls ih =>
    intro b0 b h
    unfold TapTree.push_all at h
    cases hp : b0.push_leaf l with
    | error e => rw [hp] at h; exact absurd h (by simp)
    | ok p =>
      rw [hp] at h
      obtain ⟨f, b1⟩ := p
      have hb1 : b1.leaves = b0.leaves ++ [l] := by
        obtain ⟨lv, bu, fin⟩ := b0
        cases fin
        · rw [push_leaf_eq_of_not_finalized] at hp
          simp only [Except.ok.injEq, Prod.mk.injEq] at hp
          obtain ⟨-, h2⟩ := hp
          subst h2
          rfl
        · rw [push_leaf_eq_of_finalized] at hp
          exact absurd hp (by simp)
      have := ih b1 b h
      rw [this, hb1]
      simp

/-- Helper: a tree built by `from_leaves` carries exactly the input
leaves, in order. -/
theorem from_leaves_ok_leaves {ls : List LeafInfo} {t : TapTree}
    (h : TapTree.from_leaves ls = .ok t) : t.leaves = ls := by
  cases hp : TapTree.push_all TapTreeBuilder.new ls with
  | error e =>
    have he : TapTree.from_leaves ls = .error .MountainRange := by
      unfold TapTree.from_leaves
      rw [hp]
    rw [he] at h
    exact absurd h (by simp)
  | ok b =>
    have he : TapTree.from_leaves ls
        = match b.finish with
          | .error u => .error (.Unfinalized u)
          | .ok t => .ok t := by
      unfold TapTree.from_leaves
      rw [hp]
    rw [he] at h
    cases hf : b.finish with
    | error u =>
      rw [hf] at h
      exact absurd h (by simp)
    | ok t2 =>
      rw [hf] at h
      simp only [Except.ok.injEq] at h
      subst h
      obtain ⟨lv, bu, fin⟩ := b
      cases fin
      · simp [TapTreeBuilder.finish] at hf
      · have hf2 : t2 = ⟨lv⟩ := by
          simpa [TapTreeBuilder.finish] using hf.symm
        subst hf2
        simpa [TapTreeBuilder.new] using push_all_leaves ls TapTreeBuilder.new _ hp

/-- C3 counterexample: the fresh builder has buoy level 0 (the `u7`
default), yet `finish` fails with `UnfinalizedTree(0)`, because `finish`
tests the `finalized` flag, which is only ever set by a push. -/
theorem c3_counterexample_empty_builder :
    TapTreeBuilder.new.buoy.level = 0
    ∧ TapTreeBuilder.new.finish = .error ⟨0⟩ := ⟨rfl, rfl⟩

/-- C3 (amended): `push_leaf` fails with `FinalizedTree` exactly on an
already-finalized builder; `finish` succeeds exactly when the `finalized`
flag is set, which for any builder reached by at least one push is
equivalent to the buoy level being 0 (the fresh builder is the exception:
level 0 but unfinalized); an unfinalized builder's `finish` reports the
current buoy level; and `from_leaves` pushes the leaves in order and
finishes, so a successful result carries exactly the input leaves. -/
theorem c3_builder_characterization :
    (∀ (b : TapTreeBuilder) (leaf : LeafInfo),
      b.push_leaf leaf = .error ⟨⟩ ↔ b.finalized = true)
    ∧ (∀ b : TapTreeBuilder, b.finish.isOk = b.finalized)
    ∧ (∀ b : TapTreeBuilder, b.finalized = false → b.finish = .error ⟨b.buoy.level⟩)
    ∧ (∀ (ls : List LeafInfo) (b : TapTreeBuilder), ls ≠ [] →
        TapTree.push_all TapTreeBuilder.new ls = .ok b →
        (b.finalized = true ↔ b.buoy.level = 0))
    ∧ (∀ (ls : List LeafInfo) (t : TapTree),
        TapTree.from_leaves ls = .ok t → t.leaves = ls) := by
  refine ⟨fun b leaf => ?_, fun b => ?_, fun b h => ?_,
    fun ls b h1 h2 => push_all_finalized_iff ls _ b h1 h2,
    fun ls t h => from_leaves_ok_leaves h⟩
  · obtain ⟨lv, bu, fin⟩ := b
    cases fin
    · rw [push_leaf_eq_of_not_finalized]
      simp
    · rw [push_leaf_eq_of_finalized]
      simp
  · unfold TapTreeBuilder.finish
    by_cases hb : b.finalized <;> simp [hb, Except.isOk, Except.toBool]
  · unfold TapTreeBuilder.finish
    simp [h]

/-- C3 witness: the amended characterization applied at the fresh builder
and at the concrete two-leaf tree with both leaves at depth 1. -/
theorem c3_witness_concrete :
    TapTreeBuilder.new.finish = .error ⟨TapTreeBuilder.new.buoy.level⟩
    ∧ ((⟨[⟨1, ⟨0xc0, [1]⟩⟩, ⟨1, ⟨0xc0, [2]⟩⟩], ⟨[0]⟩, true⟩ : TapTreeBuilder).finalized = true
        ↔ (⟨[⟨1, ⟨0xc0, [1]⟩⟩, ⟨1, ⟨0xc0, [2]⟩⟩], ⟨[0]⟩, true⟩ : TapTreeBuilder).buoy.level = 0)
    ∧ (TapTree.mk [⟨1, ⟨0xc0, [1]⟩⟩, ⟨1, ⟨0xc0, [2]⟩⟩]).leaves
        = [⟨1, ⟨0xc0, [1]⟩⟩, ⟨1, ⟨0xc0, [2]⟩⟩] :=
  ⟨c3_builder_characterization.2.2.1 TapTreeBuilder.new rfl,
   c3_builder_characterization.2.2.2.1 [⟨1, ⟨0xc0, [1]⟩⟩, ⟨1, ⟨0xc0, [2]⟩⟩] _
     (by simp) rfl,
   c3_builder_characterization.2.2.2.2 [⟨1, ⟨0xc0, [1]⟩⟩, ⟨1, ⟨0xc0, [2]⟩⟩] _ rfl⟩

/-- C2 counterexample: a finalized two-leaf tree (both leaves at depth 1)
on which `merkle_root` is the `todo!` panic (modelled `none`) instead of
the BIP-341 Merkle fold claimed by the spec. -/
theorem c2_counterexample_two_leaf_merkle_root :
    TapTree.from_leaves [⟨1, ⟨0xc0, [1]⟩⟩, ⟨1, ⟨0xc0, [2]⟩⟩]
      = .ok ⟨[⟨1, ⟨0xc0, [1]⟩⟩, ⟨1, ⟨0xc0, [2]⟩⟩]⟩
    ∧ TapTree.merkle_root ⟨[⟨1, ⟨0xc0, [1]⟩⟩, ⟨1, ⟨0xc0, [2]⟩⟩]⟩ = none := ⟨rfl, rfl⟩

/-- C2 (amended): on every tree built by `from_leaves`, `merkle_root`
returns the `TapLeafHash` of the single leaf's script when there is
exactly one leaf, and is unimplemented (a `todo!` panic, modelled `none`)
whenever there is more than one leaf. -/
theorem c2_merkle_root_characterization :
    (∀ (ls : List LeafInfo) (t : TapTree), TapTree.from_leaves ls = .ok t →
      ls.length = 1 →
      t.merkle_root = some (.ofLeaf (.with_leaf_script (ls.headD default).script)))
    ∧ (∀ (ls : List LeafInfo) (t : TapTree), TapTree.from_leaves ls = .ok t →
      1 < ls.length → t.merkle_root = none) := by
  constructor
  · intro ls t h hlen
    have hl := from_leaves_ok_leaves h
    unfold TapTree.merkle_root
    rw [hl, hlen]
    simp
  · intro ls t h hlen
    have hl := from_leaves_ok_leaves h
    unfold TapTree.merkle_root
    rw [hl]
    simp [Nat.ne_of_gt hlen]

/-- C2 witness: the amended characterization applied at a concrete
single-leaf tree (depth 0) and at the concrete two-leaf tree. -/
theorem c2_witness_concrete :
    TapTree.merkle_root ⟨[⟨0, ⟨0xc0, [7]⟩⟩]⟩
      = some (.ofLeaf (.with_leaf_script ⟨0xc0, [7]⟩))
    ∧ TapTree.merkle_root ⟨[⟨1, ⟨0xc0, [8]⟩⟩, ⟨1, ⟨0xc0, [9]⟩⟩]⟩ = none :=
  ⟨c2_merkle_root_characterization.1 [⟨0, ⟨0xc0, [7]⟩⟩] _ rfl rfl,
   c2_merkle_root_characterization.2 [⟨1, ⟨0xc0, [8]⟩⟩, ⟨1, ⟨0xc0, [9]⟩⟩] _ rfl
     (by decide)⟩

/-! ## Derivation paths (derive/src/path.rs) -/

/-- Embedding of `DerivationPath::shared_prefix` (the source name is
shared followed by an underscore and the word for a leading segment).
It is generic over the element types of `self` and `master` and their
conversions `toD1`, `toD2` into the common `DerivationIndex` form, exactly
as the Rust function is generic over `I : Into<DerivationIndex>` and
`I2 : Idx + Into<DerivationIndex>`. -/
def sharedPrefix {I I2 D : Type} [DecidableEq D] (toD1 : I → D) (toD2 : I2 → D)
    (p : List I) (master : List I2) : Nat :=
  if master.length ≤ p.length then
    if ((p.zip master).takeWhile (fun ab => decide (toD1 ab.1 = toD2 ab.2))).length
        = master.length
    then ((p.zip master).takeWhile (fun ab => decide (toD1 ab.1 = toD2 ab.2))).length
    else 0
  else 0

/-- Embedding of `DerivationPath::starts_with`. -/
def starts_with {I I2 D : Type} [DecidableEq D] (toD1 : I → D) (toD2 : I2 → D)
    (p : List I) (master : List I2) : Bool :=
  sharedPrefix toD1 toD2 p master == master.length

/-- Helper: the `take_while`-over-`zip` count reaches `master.length`
exactly when the projections of the first `master.length` elements of `p`
agree with the projections of `master`. -/
theorem takeWhile_zip_length_iff {I I2 D : Type} [DecidableEq D]
    (toD1 : I → D) (toD2 : I2 → D) :
    ∀ (master : List I2) (p : List I), master.length ≤ p.length →
      (((p.zip master).takeWhile (fun ab => decide (toD1 ab.1 = toD2 ab.2))).length
          = master.length
        ↔ (p.take master.length).map toD1 = master.map toD2) := by
  intro master
  induction master with
  | nil => intro p _; simp
  | cons b m ih =>
    intro p hle
    cases p with
    | nil => simp at hle
    | cons a p =>
      simp only [List.length_cons, Nat.add_le_add_iff_right] at hle
      by_cases hab : toD1 a = toD2 b
      · simp only [List.zip_cons_cons, List.takeWhile_cons]
        rw [if_pos (by simp [hab])]
        simp only [List.length_cons, List.take_succ_cons, List.map_cons, add_left_inj]
        rw [ih p hle]
        simp [hab]
      · simp only [List.zip_cons_cons, List.takeWhile_cons]
        rw [if_neg (by simp [hab])]
        simp only [List.length_nil, List.length_cons, List.take_succ_cons, List.map_cons]
        constructor
        · intro h
          omega
        · intro h
          injection h with h1 _
          exact absurd h1 hab

/-- C8: `shared_prefix` returns `len(master)` exactly when `master` is no
longer than the path and the element-wise projections into the common
index form agree on the first `len(master)` positions, and `0` in every
other case; `starts_with` holds exactly when `shared_prefix` returns
`len(master)`. -/
theorem c8_shared_prefix_starts_with {I I2 D : Type} [DecidableEq D]
    (toD1 : I → D) (toD2 : I2 → D) :
    (∀ (p : List I) (master : List I2),
      sharedPrefix toD1 toD2 p master =
        if master.length ≤ p.length
            ∧ (p.take master.length).map toD1 = master.map toD2
        then master.length else 0)
    ∧ (∀ (p : List I) (master : List I2),
      starts_with toD1 toD2 p master = true
        ↔ sharedPrefix toD1 toD2 p master = master.length) := by
  constructor
  · intro p master
    unfold sharedPrefix
    by_cases hle : master.length ≤ p.length
    · rw [if_pos hle]
      by_cases heq : (p.take master.length).map toD1 = master.map toD2
      · have h1 := (takeWhile_zip_length_iff toD1 toD2 master p hle).mpr heq
        rw [if_pos h1, if_pos ⟨hle, heq⟩, h1]
      · have h1 := fun hc => heq ((takeWhile_zip_length_iff toD1 toD2 master p hle).mp hc)
        rw [if_neg h1, if_neg (fun hc => heq hc.2)]
    · rw [if_neg hle, if_neg (fun hc => hle hc.1)]
  · intro p master
    unfold starts_with
    exact beq_iff_eq

/-- C8 witness: a concrete instantiation over `Nat` indices with identity
projections. -/
theorem c8_witness_concrete :
    sharedPrefix (id : Nat → Nat) id [5, 6, 7] [5, 6] =
      (if ([5, 6] : List Nat).length ≤ ([5, 6, 7] : List Nat).length
          ∧ (([5, 6, 7] : List Nat).take ([5, 6] : List Nat).length).map id
            = ([5, 6] : List Nat).map id
        then ([5, 6] : List Nat).length else 0)
    ∧ (starts_with (id : Nat → Nat) id [5, 6, 7] [5, 9] = true
        ↔ sharedPrefix (id : Nat → Nat) id [5, 6, 7] [5, 9]
            = ([5, 9] : List Nat).length) :=
  ⟨(c8_shared_prefix_starts_with (id : Nat → Nat) id).1 [5, 6, 7] [5, 6],
   (c8_shared_prefix_starts_with (id : Nat → Nat) id).2 [5, 6, 7] [5, 9]⟩

/-! ## Single-sig descriptors (descriptors/src/singlesig.rs) -/

/-- Extended-key origin: master fingerprint plus derivation path (indices
as `u32` child numbers). -/
structure XkeyOrigin where
  master_fp : Nat
  derivation : List Nat
deriving DecidableEq

/-- Key origin attached to a derived key. -/
structure KeyOrigin where
  master_fp : Nat
  derivation : List Nat
deriving DecidableEq

/-- Modelled from the spec: `XkeyOrigin::is_subset_of` (from the xkey
module, not among the sources) matches a signer key against the
descriptor's xpub origin by prefix: same master fingerprint and the
account path is a leading segment of the key's full path. -/
def XkeyOrigin.is_subset_of (our : XkeyOrigin) (other : KeyOrigin) : Bool :=
  our.master_fp == other.master_fp && our.derivation.isPrefixOf other.derivation

/-- Legacy public key, carrying its serialized bytes (free model of the
external bc crate's `LegacyPk`; `to_vec` is the serialization). -/
structure LegacyPk where
  bytes : List Nat
deriving DecidableEq

/-- Serialization of a `LegacyPk` (`key.to_vec()`). -/
def LegacyPk.to_vec (k : LegacyPk) : List Nat := k.bytes

/-- Legacy (DER + sighash byte) signature, carrying its serialized bytes
(free model of `LegacySig`; `to_vec` is the serialization). -/
structure LegacySig where
  bytes : List Nat
deriving DecidableEq

/-- Serialization of a `LegacySig` (`sig.to_vec()`). -/
def LegacySig.to_vec (s : LegacySig) : List Nat := s.bytes

/-- Embedding of `LegacyKeySig`. -/
structure LegacyKeySig where
  key : LegacyPk
  sig : LegacySig
deriving DecidableEq

/-- Modelled from the external bc crate: `push_slice` appends a data push
to a script; for data shorter than `0x4c` bytes this is the length byte
followed by the data (sufficient for every use in these claims). -/
def SigScript.push_slice (s : List Nat) (data : List Nat) : List Nat :=
  s ++ (data.length :: data)

/-- Embedding of `Wpkh::legacy_witness`: find the first key-signature
entry whose origin extends ours, and produce an empty sig script together
with the witness stack `[sig, key]`.  The redeem- and witness-script
arguments are ignored by the source (`_redeem_script`,
`_witness_script`). -/
def Wpkh.legacy_witness (xpub_origin : XkeyOrigin)
    (keysigs : List (KeyOrigin × LegacyKeySig))
    (_redeem_script : Option (List Nat)) (_witness_script : Option (List Nat)) :
    Option (List Nat × Option (List (List Nat))) :=
  match keysigs.find? (fun kv => xpub_origin.is_subset_of kv.1) with
  | none => none
  | some kv => some ([], some [kv.2.sig.to_vec, kv.2.key.to_vec])

/-- Embedding of `ShWpkh::legacy_witness`: the body is byte-identical to
`Wpkh::legacy_witness` in the source — the sig script is empty and the
redeem-script argument is ignored. -/
def ShWpkh.legacy_witness (xpub_origin : XkeyOrigin)
    (keysigs : List (KeyOrigin × LegacyKeySig))
    (_redeem_script : Option (List Nat)) (_witness_script : Option (List Nat)) :
    Option (List Nat × Option (List (List Nat))) :=
  match keysigs.find? (fun kv => xpub_origin.is_subset_of kv.1) with
  | none => none
  | some kv => some ([], some [kv.2.sig.to_vec, kv.2.key.to_vec])

/-- C5: for a concrete matched key-signature pair, both `wpkh` and
`sh(wpkh)` produce the witness stack `[sig, key]`; the sig script is empty
in both cases — `ShWpkh::legacy_witness` ignores the redeem script it is
given instead of pushing it, so its sig script differs from the
redeem-script push the claim (and BIP-141) require. -/
theorem c5_shwpkh_sig_script_not_redeem_push :
    Wpkh.legacy_witness ⟨7, [0x54]⟩ [(⟨7, [0x54, 0, 3]⟩, ⟨⟨[2, 2]⟩, ⟨[1, 1]⟩⟩)]
        none none
      = some ([], some [[1, 1], [2, 2]])
    ∧ ShWpkh.legacy_witness ⟨7, [0x54]⟩ [(⟨7, [0x54, 0, 3]⟩, ⟨⟨[2, 2]⟩, ⟨[1, 1]⟩⟩)]
        (some [0x00, 0x14, 9]) none
      = some ([], some [[1, 1], [2, 2]])
    ∧ ([] : List Nat) ≠ SigScript.push_slice [] [0x00, 0x14, 9] := by
  refine ⟨rfl, rfl, by decide⟩

/-! ## Batch derivation (std/src/derive.rs) -/

/-- Modelled from the spec: `NormalIndex::checked_inc_assign` from the
index module (not among the sources).  Normal indices occupy `[0, 2^31)`;
the checked increment fails exactly on the last normal index. -/
def checked_inc_assign (index : Nat) : Option Nat :=
  if index + 1 < 2 ^ 31 then some (index + 1) else none

/-- Loop of `Derive::derive_batch`: push the item derived at the current
index, bump the count, then stop if `checked_inc_assign` failed or the
count reached `max_count`.  The `checked_inc_assign` test is inlined as
`index + 1 < 2^31` (see `checked_inc_assign_eq`) so that the recursion
visibly decreases. -/
def derive_batch_loop {α : Type} (f : Nat → Nat → α)
    (change max_count index count : Nat) : List α :=
  if _h : index + 1 < 2 ^ 31 then
    if count + 1 ≥ max_count then [f change index]
    else f change index :: derive_batch_loop f change max_count (index + 1) (count + 1)
  else [f change index]
termination_by 2 ^ 31 - index
decreasing_by omega

/-- The inlined test in `derive_batch_loop` agrees with
`checked_inc_assign`. -/
theorem checked_inc_assign_eq (index : Nat) :
    checked_inc_assign index = if index + 1 < 2 ^ 31 then some (index + 1) else none :=
  rfl

/-- Embedding of `Derive::derive_batch` (the derivation itself is the
parameter `f`, standing for the trait method `derive`). -/
def derive_batch {α : Type} (f : Nat → Nat → α)
    (change fromIdx max_count : Nat) : List α :=
  derive_batch_loop f change max_count fromIdx 0

/-- Helper: length of the `derive_batch` loop. -/
theorem derive_batch_loop_length {α : Type} (f : Nat → Nat → α) (change m : Nat) :
    ∀ (n index count : Nat), 2 ^ 31 - index = n → index < 2 ^ 31 →
      (derive_batch_loop f change m index count).length
        = if m ≤ count + 1 then 1 else min (m - count) (2 ^ 31 - index) := by
  intro n
  induction n with
  | zero => intro index count h1 h2; omega
  | succ n ih =>
    intro index count h1 h2
    unfold derive_batch_loop
    by_cases hinc : index + 1 < 2 ^ 31
    · rw [dif_pos hinc]
      by_cases hcnt : count + 1 ≥ m
      · rw [if_pos hcnt, if_pos hcnt]
        rfl
      · rw [if_neg hcnt]
        have hle : ¬ m ≤ count + 1 := hcnt
        rw [if_neg hle]
        have := ih (index + 1) (count + 1) (by omega) hinc
        simp only [List.length_cons, this]
        by_cases hm2 : m ≤ count + 1 + 1
        · rw [if_pos hm2, Nat.min_def]
          split <;> omega
        · rw [if_neg hm2, Nat.min_def, Nat.min_def]
          split <;> split <;> omega
    · rw [dif_neg hinc]
      have hone : 2 ^ 31 - index = 1 := by omega
      simp only [List.length_cons, List.length_nil, hone]
      by_cases hm : m ≤ count + 1
      · rw [if_pos hm]
      · rw [if_neg hm, Nat.min_def]
        split <;> omega

/-- C10: `derive_batch` always returns at least one item — even for
`max_count = 0` it derives and pushes before checking the count, giving a
singleton batch; for positive `max_count` the batch length is the minimum
of `max_count` and the number of normal indices from the starting index
through the last one before the hardened boundary. -/
theorem c10_derive_batch_length {α : Type} (f : Nat → Nat → α)
    (change fromIdx max_count : Nat) (h : fromIdx < 2 ^ 31) :
    (derive_batch f change fromIdx max_count).length
      = if max_count = 0 then 1 else min max_count (2 ^ 31 - fromIdx) := by
  unfold derive_batch
  rw [derive_batch_loop_length f change max_count (2 ^ 31 - fromIdx) fromIdx 0 rfl h]
  rcases Nat.eq_zero_or_pos max_count with h0 | hpos
  · subst h0
    rw [if_pos (by omega), if_pos rfl]
  · rw [if_neg (by omega : ¬ max_count = 0)]
    by_cases h1 : max_count ≤ 0 + 1
    · rw [if_pos h1, Nat.min_def]
      split <;> omega
    · rw [if_neg h1]
      simp

/-- C10 witness: two indices from the hardened boundary with
`max_count = 7` the batch stops at the boundary with two items; with
`max_count = 0` it still returns one item. -/
theorem c10_witness_boundary :
    (derive_batch (fun _ i => i) 0 (2 ^ 31 - 2) 7).length
        = (if 7 = 0 then 1 else min 7 (2 ^ 31 - (2 ^ 31 - 2)))
    ∧ (derive_batch (fun _ i => i) 0 5 0).length = (if 0 = 0 then 1 else min 0 (2 ^ 31 - 5)) :=
  ⟨c10_derive_batch_length (fun _ i => i) 0 (2 ^ 31 - 2) 7 (by norm_num),
   c10_derive_batch_length (fun _ i => i) 0 5 0 (by norm_num)⟩

/-! ## Descriptor multi-form parsing (descriptors/src/compiler/compile.rs) -/

/-- Descriptor AST node (`DescrAst`), with keys already parsed to `K` by
the AST builder; the text spans and the tree-AST payload are irrelevant to
the claims and are elided. -/
inductive DescrAst (K : Type) where
  | Lit (s : String)
  | Key (k : K)
  | Script (name : String) (children : List (DescrAst K))
  | Tree

/-- A script-application AST node (`ScriptExpr`): a name applied to a list
of argument ASTs. -/
structure ScriptExpr (K : Type) where
  name : String
  children : List (DescrAst K)

/-- Embedding of `DescrExpr`, the argument-pattern alphabet. -/
inductive DescrExpr where
  | Script
  | Lit
  | Key
  | Tree
  | VariadicKey
  | VariadicLit
deriving DecidableEq

/-- Embedding of `DescrExpr::check_expr`. -/
def DescrExpr.check_expr {K : Type} : DescrExpr → DescrAst K → Bool
  | .Lit, .Lit _ => true
  | .VariadicLit, .Lit _ => true
  | .Key, .Key _ => true
  | .VariadicKey, .Key _ => true
  | .Script, .Script _ _ => true
  | .Tree, .Tree => true
  | _, _ => false

/-- Embedding of `check_forms`.  The source drains zipped prefixes of the
two iterators: Rust's `zip` consumes one extra element of the first
iterator when the second runs dry, so the leftover test
`iter1.count() > 0` is `form.length > children.length + 1`, and the
leftover of the children iterator is `children.drop form.length`. -/
def check_forms {K : Type} (ast : ScriptExpr K) (ident : String)
    (form : List DescrExpr) : Option (List (DescrAst K)) :=
  if ast.name ≠ ident then none
  else if (form.zip ast.children).any (fun ab => ! ab.1.check_expr ab.2) then none
  else if form.length > ast.children.length + 1 then none
  else if form.getLast? = some .VariadicKey then
    if (ast.children.drop form.length).any (fun d => ! DescrExpr.Key.check_expr d)
    then none else some ast.children
  else if form.getLast? = some .VariadicLit then
    if (ast.children.drop form.length).any (fun d => ! DescrExpr.Lit.check_expr d)
    then none else some ast.children
  else if 0 < (ast.children.drop form.length).length then none
  else some ast.children

/-- Decimal-numeral parser on the character list of a string (the
accumulator loop of the standard library integer parser; an optional
leading sign is elided, being irrelevant to descriptor numerals). -/
def parseDecAux : List Char → Nat → Option Nat
  | [], acc => some acc
  | c :: cs, acc =>
    if c.isDigit then parseDecAux cs (acc * 10 + (c.toNat - 48)) else none

/-- Decimal parse of a whole string; the empty string is not a numeral. -/
def parseDec (s : String) : Option Nat :=
  match s.data with
  | [] => none
  | cs => parseDecAux cs 0

/-- Modelled from the external amplify crate: `u4::from_str` parses a
decimal numeral and rejects any value above 15 (`u4` is a 4-bit unsigned
integer, so in particular the numeral 16 does not parse). -/
def u4_from_str (s : String) : Option Nat :=
  match parseDec s with
  | none => none
  | some n => if n ≤ 15 then some n else none

/-- Modelled from the external amplify crate:
`ConfinedVec::<K, 1, 16>::try_from_iter` succeeds exactly when the number
of collected items lies between 1 and 16. -/
def confinedVec_1_16 {K : Type} (ks : List K) : Option (List K) :=
  if 1 ≤ ks.length ∧ ks.length ≤ 16 then some ks else none

/-- Parse-error alphabet for the multi forms: `InvalidArgs` from a failed
`check_forms`, `InvalidLit` from the `u4::from_str` conversion, and
`Confinement` from the `ConfinedVec` bound (both are carried into
`DescrParseError` by `From` conversions in the source). -/
inductive DescrParseError where
  | InvalidArgs (which : String)
  | InvalidLit
  | Confinement
deriving DecidableEq

/-- The key-collection closure of `parse_multi_form`: every remaining
argument must be a `Key` (the `else unreachable!()` panic is `none`). -/
def collectKeys {K : Type} : List (DescrAst K) → Option (List K)
  | [] => some []
  | .Key k :: rest => (collectKeys rest).map (k :: ·)
  | _ => none

/-- Final stage of `parse_multi_form`: check the `multi`/`sortedmulti`
form, parse the `u4` threshold, collect the keys and confine them to
1..16.  The outer `none` of the result models the `unreachable!()` and
`Vec::remove` panics; the `Except` layer carries the `DescrParseError`
results of the source. -/
def multiFormTail {K : Type} (inner : String) (script : ScriptExpr K) :
    Option (Except DescrParseError (Nat × List K)) :=
  match check_forms script inner [.Lit, .VariadicKey] with
  | none => some (.error (.InvalidArgs inner))
  | some form3 =>
    match form3 with
    | [] => none
    | first :: restEls =>
      match first with
      | .Lit thresh =>
        match u4_from_str thresh with
        | none => some (.error .InvalidLit)
        | some threshold =>
          match collectKeys restEls with
          | none => none
          | some ks =>
            match confinedVec_1_16 ks with
            | none => some (.error .Confinement)
            | some keys => some (.ok (threshold, keys))
      | _ => none

/-- The optional unwrapping of the `wsh` layer in `parse_multi_form`. -/
def multiFormMedium {K : Type} (medium : Option String) (inner : String)
    (script : ScriptExpr K) : Option (Except DescrParseError (Nat × List K)) :=
  match medium with
  | none => multiFormTail inner script
  | some med =>
    match check_forms script med [.Script] with
    | none => some (.error (.InvalidArgs med))
    | some form2 =>
      match form2.getLast? with
      | some (.Script name2 children2) => multiFormTail inner ⟨name2, children2⟩
      | _ => none

/-- Embedding of `parse_multi_form`, entered after the
`ScriptExpr::from_str` step (the descriptor AST builder is in a compiler
module that is not among the sources, so the function receives the
already-parsed AST); its body is split here into the three source stages
(`check_forms outer`, the optional medium `wsh` unwrapping, and the
threshold/keys extraction). -/
def parse_multi_form {K : Type} (ast : ScriptExpr K) (outer : String)
    (medium : Option String) (inner : String) :
    Option (Except DescrParseError (Nat × List K)) :=
  match check_forms ast outer [.Script] with
  | none => some (.error (.InvalidArgs outer))
  | some form =>
    match form.getLast? with
    | some (.Script name1 children1) => multiFormMedium medium inner ⟨name1, children1⟩
    | _ => none


/-- Helper: collecting a list of `Key` nodes yields exactly the keys. -/
theorem collectKeys_map_key {K : Type} (ks : List K) :
    collectKeys (ks.map DescrAst.Key) = some ks := by
  induction ks with
  | nil => rfl
  | cons k ks ih => simp [collectKeys, ih]

/-- Helper: the inner `check_forms` of the multi forms accepts every
argument list made of one literal followed by at least one key, and
returns the list unchanged. -/
theorem check_forms_multi {K : Type} (ident lit : String) (k0 : K) (ks : List K) :
    check_forms ⟨ident, .Lit lit :: .Key k0 :: ks.map .Key⟩ ident
        [.Lit, .VariadicKey]
      = some (.Lit lit :: .Key k0 :: ks.map .Key) := by
  unfold check_forms
  rw [if_neg (fun hc => hc rfl)]
  rw [if_neg (by simp [DescrExpr.check_expr])]
  rw [if_neg (by
    simp only [List.length_cons, List.length_map, List.length_nil]
    omega)]
  rw [if_pos (show [DescrExpr.Lit, DescrExpr.VariadicKey].getLast?
    = some DescrExpr.VariadicKey from rfl)]
  rw [if_neg (by simp [DescrExpr.check_expr, List.any_map, Function.comp])]

/-- C6 counterexample: the claim requires the multi forms to reject a zero
threshold and a threshold above the key count, and to accept `k = 16`.
The code parses the threshold as an amplify `u4` (range 0..15) and never
compares it with the key count: `sh(multi(0,KEY))` and `sh(multi(3,KEY))`
are accepted while `sh(multi(16,KEY,...16 keys...))` is rejected. -/
theorem c6_counterexample_thresholds :
    parse_multi_form (K := Nat)
        ⟨"sh", [.Script "multi" [.Lit "0", .Key 11]]⟩ "sh" none "multi"
      = some (.ok (0, [11]))
    ∧ parse_multi_form (K := Nat)
        ⟨"sh", [.Script "multi" [.Lit "3", .Key 11]]⟩ "sh" none "multi"
      = some (.ok (3, [11]))
    ∧ parse_multi_form (K := Nat)
        ⟨"sh", [.Script "multi"
          [.Lit "16", .Key 1, .Key 2, .Key 3, .Key 4, .Key 5, .Key 6, .Key 7,
           .Key 8, .Key 9, .Key 10, .Key 11, .Key 12, .Key 13, .Key 14,
           .Key 15, .Key 16]]⟩ "sh" none "multi"
      = some (.error .InvalidLit) := ⟨rfl, rfl, rfl⟩

/-- C6 (amended): on a well-formed `sh(multi(lit, key+))` AST the parser
accepts exactly the thresholds whose numeral fits a `u4` (0..15, so 16 is
rejected and 0 accepted), performs no comparison of the threshold with the
number of keys, and confines the key count to at most 16 (two or more
keys beyond the first 16 yield `Confinement`); a `multi` with no keys at
all is likewise rejected by the confinement bound. -/
theorem c6_parse_multi_form_characterization {K : Type}
    (lit : String) (k0 : K) (ks : List K) :
    (parse_multi_form ⟨"sh", [.Script "multi" (.Lit lit :: .Key k0 :: ks.map .Key)]⟩
        "sh" none "multi"
      = some (match u4_from_str lit with
          | none => .error .InvalidLit
          | some t =>
            if ks.length + 1 ≤ 16 then .ok (t, k0 :: ks) else .error .Confinement))
    ∧ parse_multi_form (K := Nat)
        ⟨"sh", [.Script "multi" [.Lit "2"]]⟩ "sh" none "multi"
      = some (.error .Confinement) := by
  constructor
  · have h1 : parse_multi_form
        (⟨"sh", [.Script "multi" (.Lit lit :: .Key k0 :: ks.map .Key)]⟩ : ScriptExpr K)
        "sh" none "multi"
        = multiFormTail "multi" ⟨"multi", .Lit lit :: .Key k0 :: ks.map .Key⟩ := rfl
    rw [h1]
    unfold multiFormTail
    rw [check_forms_multi]
    show (match u4_from_str lit with
      | none => some (Except.error DescrParseError.InvalidLit)
      | some threshold =>
        match collectKeys (DescrAst.Key k0 :: ks.map DescrAst.Key) with
        | none => none
        | some kk =>
          match confinedVec_1_16 kk with
          | none => some (Except.error DescrParseError.Confinement)
          | some keys => some (Except.ok (threshold, keys))
        : Option (Except DescrParseError (Nat × List K))) = _
    have hck : collectKeys (.Key k0 :: ks.map DescrAst.Key) = some (k0 :: ks) := by
      simp [collectKeys, collectKeys_map_key]
    rw [hck]
    cases hu : u4_from_str lit with
    | none => rfl
    | some t =>
      show (match confinedVec_1_16 (k0 :: ks) with
        | none => some (Except.error DescrParseError.Confinement)
        | some keys => some (Except.ok (t, keys))
        : Option (Except DescrParseError (Nat × List K))) = _
      unfold confinedVec_1_16
      by_cases h16 : ks.length + 1 ≤ 16
      · rw [if_pos ⟨by simp, by simpa using h16⟩]
        simp [h16]
      · rw [if_neg (fun hc => h16 (by simpa using hc.2))]
        simp [h16]
  · rfl

/-! ## Base58 (invoice/src/base58.rs) -/

/-- The 58 byte values of the `BASE58_CHARS` alphabet string. -/
def BASE58_CHARS : List Nat := [49, 50, 51, 52, 53, 54, 55, 56, 57, 65, 66, 67, 68, 69, 70, 71, 72, 74, 75, 76, 77, 78, 80, 81, 82, 83, 84, 85, 86, 87, 88, 89, 90, 97, 98, 99, 100, 101, 102, 103, 104, 105, 106, 107, 109, 110, 111, 112, 113, 114, 115, 116, 117, 118, 119, 120, 121, 122]

/-- The `BASE58_DIGITS` inverse table for the first 128 byte values. -/
def BASE58_DIGITS : List (Option Nat) :=
  [none, none, none, none, none, none, none, none,
   none, none, none, none, none, none, none, none,
   none, none, none, none, none, none, none, none,
   none, none, none, none, none, none, none, none,
   none, none, none, none, none, none, none, none,
   none, none, none, none, none, none, none, none,
   none, some 0, some 1, some 2, some 3, some 4, some 5, some 6,
   some 7, some 8, none, none, none, none, none, none,
   none, some 9, some 10, some 11, some 12, some 13, some 14, some 15,
   some 16, none, some 17, some 18, some 19, some 20, some 21, none,
   some 22, some 23, some 24, some 25, some 26, some 27, some 28, some 29,
   some 30, some 31, some 32, none, none, none, none, none,
   none, some 33, some 34, some 35, some 36, some 37, some 38, some 39,
   some 40, some 41, some 42, some 43, none, some 44, some 45, some 46,
   some 47, some 48, some 49, some 50, some 51, some 52, some 53, some 54,
   some 55, some 56, some 57, none, none, none, none, none]

/-- Embedding of the base58 `Error` type. -/
inductive Base58Error where
  | BadByte (b : Nat)
  | BadChecksum (expected actual : Nat)
  | InvalidLength (l : Nat)
  | InvalidExtendedKeyVersion (v : List Nat)
  | InvalidAddressVersion (v : Nat)
  | TooShort (l : Nat)
deriving DecidableEq

/-- One `X = X * 58 + digit` update over the big-endian scratch
(`for d256 in scratch.iter_mut().rev()` in `decode`): the carry runs from
the least significant end to the front; the final carry is returned
together with the updated scratch. -/
def mulAddBE : List Nat → Nat → Nat × List Nat
  | [], d => (d, [])
  | b :: rest, d =>
    let cr := mulAddBE rest d
    ((cr.1 + b * 58) / 256, ((cr.1 + b * 58) % 256) :: cr.2)

/-- The per-character loop of `decode`; `none` models the
`assert_eq!(carry, 0)` panic (the scratch is sized so that it never fires
on inputs produced by `encode`). -/
def decode_loop : List Nat → List Nat → Option (Except Base58Error (List Nat))
  | [], scratch => some (.ok scratch)
  | d58 :: rest, scratch =>
    if 128 ≤ d58 then some (.error (.BadByte d58))
    else
      match BASE58_DIGITS.getD d58 none with
      | none => some (.error (.BadByte d58))
      | some d =>
        let cs := mulAddBE scratch d
        if cs.1 = 0 then decode_loop rest cs.2 else none

/-- Embedding of `base58::decode` over the byte list of the input string:
build the value in base 256 in a scratch of `1 + len * 11 / 15` bytes,
then emit one zero byte per leading `'1'` (byte 49) and the scratch with
its leading zeros stripped. -/
def decode (data : List Nat) : Option (Except Base58Error (List Nat)) :=
  match decode_loop data (List.replicate (1 + data.length * 11 / 15) 0) with
  | none => none
  | some (.error e) => some (.error e)
  | some (.ok scratch) =>
    some (.ok ((data.takeWhile (fun x => x == 49)).map (fun _ => 0)
      ++ scratch.dropWhile (fun x => x == 0)))

/-- The `while carry > 0` digit-pushing loop of `format_iter`. -/
def pushDigits58 : Nat → List Nat
  | 0 => []
  | c + 1 => ((c + 1) % 58) :: pushDigits58 ((c + 1) / 58)
decreasing_by exact Nat.div_lt_self (Nat.succ_pos c) (by norm_num)

/-- The `for ch in ret` multiply-add pass of `format_iter` over the
little-endian base-58 digit list, ending in the carry-pushing loop. -/
def mulAdd256 : List Nat → Nat → List Nat
  | [], carry => pushDigits58 carry
  | ch :: rest, carry =>
    ((ch * 256 + carry) % 58) :: mulAdd256 rest ((ch * 256 + carry) / 58)

/-- The per-byte loop of `format_iter`: threads the digit list, the
leading-zero count and the leading-zeroes flag. -/
def format_iter_loop : List Nat → List Nat → Nat → Bool → List Nat × Nat
  | [], ret, lzc, _ => (ret, lzc)
  | d256 :: rest, ret, lzc, lz =>
    format_iter_loop rest (mulAdd256 ret d256)
      (if lz && d256 == 0 then lzc + 1 else lzc) (lz && d256 == 0)

/-- Embedding of `base58::encode` (via `encode_iter` and `format_iter`),
producing the byte list of the output string: run the loop, append one
zero digit per leading zero byte, reverse, and map digits to alphabet
bytes. -/
def encode (data : List Nat) : List Nat :=
  match format_iter_loop data [] 0 true with
  | (ret, lzc) =>
    ((ret ++ List.replicate lzc 0).reverse).map (fun d => BASE58_CHARS.getD d 0)

/-- `u32::from_le_bytes` on a four-byte list. -/
def from_le_bytes (l : List Nat) : Nat := Nat.ofDigits 256 l

/-- Embedding of `base58::encode_check`: append the first four bytes of
the double hash to the payload.  SHA-256 comes from the external sha2
crate and is a parameter here; the claims hold for every hash function of
the right shape. -/
def encode_check (sha : List Nat → List Nat) (data : List Nat) : List Nat :=
  encode (data ++ (sha (sha data)).take 4)

/-- Checksum-verification tail of `decode_check`, applied once the inner
`decode` has succeeded; the two `expect("4 byte slice")` conversions are
modelled by the length guard (`none` when violated, which never happens
for a 32-byte hash). -/
def decode_check_tail (sha : List Nat → List Nat) (ret : List Nat) :
    Option (Except Base58Error (List Nat)) :=
  if ret.length < 4 then some (.error (.TooShort ret.length))
  else
    if ((sha (sha (ret.take (ret.length - 4)))).take 4).length = 4
        ∧ (ret.drop (ret.length - 4)).length = 4 then
      if from_le_bytes ((sha (sha (ret.take (ret.length - 4)))).take 4)
          ≠ from_le_bytes (ret.drop (ret.length - 4)) then
        some (.error (.BadChecksum
          (from_le_bytes ((sha (sha (ret.take (ret.length - 4)))).take 4))
          (from_le_bytes (ret.drop (ret.length - 4)))))
      else some (.ok (ret.take (ret.length - 4)))
    else none

/-- Embedding of `base58::decode_check`: decode, then verify and strip the
four-byte double-hash checksum. -/
def decode_check (sha : List Nat → List Nat) (data : List Nat) :
    Option (Except Base58Error (List Nat)) :=
  match decode data with
  | none => none
  | some (.error e) => some (.error e)
  | some (.ok ret) => decode_check_tail sha ret

/-- Value of a big-endian digit list in base `b`. -/
def valBase (b : Nat) (l : List Nat) : Nat := l.foldl (fun a d => b * a + d) 0

/-- Helper: `foldl` multiply-add from an arbitrary accumulator. -/
theorem valBase_go (b : Nat) (l : List Nat) :
    ∀ a : Nat, l.foldl (fun a d => b * a + d) a = a * b ^ l.length + valBase b l := by
  induction l with
  | nil => intro a; simp [valBase]
  | cons x l ih =>
    intro a
    have h0 := ih (b * 0 + x)
    simp only [List.foldl_cons, valBase, List.length_cons] at *
    rw [ih (b * a + x), h0]
    ring

/-- Helper: `valBase` of a cons. -/
theorem valBase_cons (b x : Nat) (l : List Nat) :
    valBase b (x :: l) = x * b ^ l.length + valBase b l := by
  simp only [valBase, List.foldl_cons]
  rw [valBase_go]
  simp only [valBase]
  ring

/-- Helper: `valBase` is `ofDigits` of the reversed list. -/
theorem valBase_eq_ofDigits_reverse (b : Nat) (l : List Nat) :
    valBase b l = Nat.ofDigits b l.reverse := by
  induction l with
  | nil => rfl
  | cons x l ih =>
    rw [valBase_cons, List.reverse_cons, Nat.ofDigits_append, ih]
    simp [Nat.ofDigits_singleton, List.length_reverse]
    ring

/-- Helper: leading zeros do not change the value. -/
theorem valBase_replicate_zero_append (b k : Nat) (l : List Nat) :
    valBase b (List.replicate k 0 ++ l) = valBase b l := by
  induction k with
  | zero => rfl
  | succ k ih =>
    rw [List.replicate_succ, List.cons_append, valBase_cons, ih]
    simp

/-- Helper: the value of a `b`-bounded digit list is below `b ^ length`. -/
theorem valBase_lt (b : Nat) (hb : 0 < b) :
    ∀ l : List Nat, (∀ x ∈ l, x < b) → valBase b l < b ^ l.length := by
  intro l
  induction l with
  | nil =>
    intro _
    have h1 : (0:Nat) < b ^ 0 := Nat.pos_pow_of_pos 0 hb
    simp only [valBase, List.foldl_nil, List.length_nil]
    exact h1
  | cons x l ih =>
    intro h
    rw [valBase_cons, List.length_cons, pow_succ]
    have hx : x < b := h x (by simp)
    have hv := ih (fun y hy => h y (by simp [hy]))
    calc x * b ^ l.length + valBase b l
        < x * b ^ l.length + b ^ l.length := by omega
      _ = (x + 1) * b ^ l.length := by ring
      _ ≤ b * b ^ l.length := Nat.mul_le_mul_right _ hx
      _ = b ^ l.length * b := by ring

/-- Helper: two lists of `b`-bounded digits of the same length with the
same big-endian value are equal. -/
theorem valBase_unique (b : Nat) (hb : 0 < b) :
    ∀ l1 l2 : List Nat, l1.length = l2.length →
      (∀ x ∈ l1, x < b) → (∀ x ∈ l2, x < b) →
      valBase b l1 = valBase b l2 → l1 = l2 := by
  intro l1
  induction l1 with
  | nil =>
    intro l2 hlen _ _ _
    cases l2 with
    | nil => rfl
    | cons => simp at hlen
  | cons x1 l1 ih =>
    intro l2 hlen h1 h2 hv
    cases l2 with
    | nil => simp at hlen
    | cons x2 l2 =>
      simp only [List.length_cons, Nat.add_left_inj] at hlen
      rw [valBase_cons, valBase_cons, hlen] at hv
      have hb1 : valBase b l1 < b ^ l2.length := hlen ▸ valBase_lt b hb l1
        (fun y hy => h1 y (by simp [hy]))
      have hb2 : valBase b l2 < b ^ l2.length := valBase_lt b hb l2
        (fun y hy => h2 y (by simp [hy]))
      have hx : x1 = x2 := by
        by_contra hne
        rcases Nat.lt_or_ge x1 x2 with hlt | hge
        · have hstep : (x1 + 1) * b ^ l2.length ≤ x2 * b ^ l2.length :=
            Nat.mul_le_mul_right _ (Nat.succ_le_of_lt hlt)
          have : x1 * b ^ l2.length + valBase b l1
              < x2 * b ^ l2.length + valBase b l2 := by
            have h1' : x1 * b ^ l2.length + valBase b l1
                < x1 * b ^ l2.length + b ^ l2.length := by omega
            have h2' : x1 * b ^ l2.length + b ^ l2.length
                = (x1 + 1) * b ^ l2.length := by ring
            omega
          omega
        · have hlt2 : x2 < x1 := Nat.lt_of_le_of_ne hge (fun hc => hne hc.symm)
          have hstep : (x2 + 1) * b ^ l2.length ≤ x1 * b ^ l2.length :=
            Nat.mul_le_mul_right _ (Nat.succ_le_of_lt hlt2)
          have : x2 * b ^ l2.length + valBase b l2
              < x1 * b ^ l2.length + valBase b l1 := by
            have h2' : x2 * b ^ l2.length + b ^ l2.length
                = (x2 + 1) * b ^ l2.length := by ring
            omega
          omega
      subst hx
      have hvv : valBase b l1 = valBase b l2 := by omega
      rw [ih l2 hlen (fun y hy => h1 y (by simp [hy]))
        (fun y hy => h2 y (by simp [hy])) hvv]

/-- Helper: the carry-pushing loop computes exactly the base-58 digits. -/
theorem pushDigits58_eq (n : Nat) : pushDigits58 n = Nat.digits 58 n := by
  induction n using Nat.strong_induction_on with
  | _ n ih =>
    cases n with
    | zero => simp [pushDigits58]
    | succ c =>
      rw [pushDigits58, ih ((c + 1) / 58) (Nat.div_lt_self (Nat.succ_pos c) (by norm_num)),
        Nat.digits_def' (by norm_num : (1:Nat) < 58) (Nat.succ_pos c)]

/-- Helper: the multiply-add pass sends the base-58 digits of `v` to the
base-58 digits of `256 * v + c`. -/
theorem mulAdd256_digits (v : Nat) : ∀ c : Nat,
    mulAdd256 (Nat.digits 58 v) c = Nat.digits 58 (256 * v + c) := by
  induction v using Nat.strong_induction_on with
  | _ v ih =>
    intro c
    cases v with
    | zero => simp [mulAdd256, pushDigits58_eq]
    | succ w =>
      set v := w + 1
      have hpos : 0 < v := Nat.succ_pos w
      rw [Nat.digits_def' (by norm_num : (1:Nat) < 58) hpos]
      rw [mulAdd256]
      rw [ih (v / 58) (Nat.div_lt_self hpos (by norm_num))]
      have hdm := Nat.div_add_mod v 58
      have hsplit : 256 * v + c = (v % 58 * 256 + c) + (v / 58 * 256) * 58 := by omega
      have hmod : (256 * v + c) % 58 = (v % 58 * 256 + c) % 58 := by
        rw [hsplit, Nat.add_mul_mod_self_right]
      have hdiv : (256 * v + c) / 58 = (v % 58 * 256 + c) / 58 + v / 58 * 256 := by
        rw [hsplit, Nat.add_mul_div_right _ _ (by norm_num : (0:Nat) < 58)]
      rw [Nat.digits_def' (by norm_num : (1:Nat) < 58) (by omega : 0 < 256 * v + c)]
      rw [hmod, hdiv]
      congr 1
      congr 1
      omega

/-- Helper: full characterization of the `format_iter` loop: the digit
list tracks the base-58 digits of the accumulated value, and the counter
counts the leading zero bytes. -/
theorem format_iter_loop_spec :
    ∀ (data : List Nat) (lzc : Nat) (lz : Bool) (v : Nat),
      format_iter_loop data (Nat.digits 58 v) lzc lz
        = (Nat.digits 58 (data.foldl (fun a d => 256 * a + d) v),
           lzc + (if lz then (data.takeWhile (fun x => x == 0)).length else 0)) := by
  intro data
  induction data with
  | nil =>
    intro lzc lz v
    cases lz <;> simp [format_iter_loop]
  | cons d rest ih =>
    intro lzc lz v
    rw [format_iter_loop]
    have hmul : mulAdd256 (Nat.digits 58 v) d = Nat.digits 58 (256 * v + d) :=
      mulAdd256_digits v d
    rw [hmul, ih]
    simp only [List.foldl_cons]
    cases lz with
    | false => simp
    | true =>
      by_cases hd : d = 0
      · subst hd
        simp [List.takeWhile_cons]
        omega
      · simp [List.takeWhile_cons, hd]

/-- Helper: closed form of `encode`: one `'1'` per leading zero byte,
followed by the base-58 digits of the value, most significant first. -/
theorem encode_eq (data : List Nat) :
    encode data
      = List.replicate (data.takeWhile (fun x => x == 0)).length 49
        ++ ((Nat.digits 58 (valBase 256 data)).reverse).map
            (fun d => BASE58_CHARS.getD d 0) := by
  unfold encode
  have h0 : ([] : List Nat) = Nat.digits 58 0 := (Nat.digits_zero 58).symm
  rw [h0, format_iter_loop_spec]
  simp only [if_true, Nat.zero_add]
  rw [List.reverse_append, List.reverse_replicate, List.map_append, List.map_replicate]
  rfl

/-- Helper: alphabet bytes are below 128. -/
theorem base58_chars_lt_128 : ∀ k, k < 58 → BASE58_CHARS.getD k 0 < 128 := by decide

/-- Helper: the digit table inverts the alphabet. -/
theorem base58_digits_inv :
    ∀ k, k < 58 → BASE58_DIGITS.getD (BASE58_CHARS.getD k 0) none = some k := by decide

/-- Helper: only digit 0 maps to the byte `'1'`. -/
theorem base58_char_ne_49 : ∀ k, k < 58 → k ≠ 0 → BASE58_CHARS.getD k 0 ≠ 49 := by
  decide

/-- Helper: shape of one `mulAddBE` pass: the length is preserved, the
bytes stay below 256, and carry and value decompose `58 * value + d`. -/
theorem mulAddBE_spec :
    ∀ (scratch : List Nat) (d : Nat),
      (mulAddBE scratch d).2.length = scratch.length
      ∧ (∀ x ∈ (mulAddBE scratch d).2, x < 256)
      ∧ (mulAddBE scratch d).1 * 256 ^ scratch.length
          + valBase 256 (mulAddBE scratch d).2
        = 58 * valBase 256 scratch + d := by
  intro scratch
  induction scratch with
  | nil =>
    intro d
    refine ⟨rfl, by simp [mulAddBE], ?_⟩
    simp [mulAddBE, valBase]
  | cons b rest ih =>
    intro d
    obtain ⟨ihlen, ihbound, ihval⟩ := ih d
    refine ⟨?_, ?_, ?_⟩
    · simp [mulAddBE, ihlen]
    · intro x hx
      simp only [mulAddBE, List.mem_cons] at hx
      rcases hx with h | h
      · subst h
        exact Nat.mod_lt _ (by norm_num)
      · exact ihbound x h
    · simp only [mulAddBE, List.length_cons, valBase_cons, ihlen]
      have hdm := Nat.div_add_mod ((mulAddBE rest d).1 + b * 58) 256
      calc ((mulAddBE rest d).1 + b * 58) / 256 * 256 ^ (rest.length + 1)
            + (((mulAddBE rest d).1 + b * 58) % 256 * 256 ^ rest.length
              + valBase 256 (mulAddBE rest d).2)
          = (256 * (((mulAddBE rest d).1 + b * 58) / 256)
              + ((mulAddBE rest d).1 + b * 58) % 256) * 256 ^ rest.length
            + valBase 256 (mulAddBE rest d).2 := by ring
        _ = ((mulAddBE rest d).1 + b * 58) * 256 ^ rest.length
            + valBase 256 (mulAddBE rest d).2 := by rw [hdm]
        _ = b * 58 * 256 ^ rest.length
            + ((mulAddBE rest d).1 * 256 ^ rest.length
              + valBase 256 (mulAddBE rest d).2) := by ring
        _ = b * 58 * 256 ^ rest.length + (58 * valBase 256 rest + d) := by rw [ihval]
        _ = 58 * (b * 256 ^ rest.length + valBase 256 rest) + d := by ring

/-- Helper: the `58 * acc + digit` fold never decreases the accumulator. -/
theorem foldl58_le (ks : List Nat) : ∀ a : Nat,
    a ≤ ks.foldl (fun a k => 58 * a + k) a := by
  induction ks with
  | nil => intro a; simp
  | cons k ks ih =>
    intro a
    simp only [List.foldl_cons]
    exact le_trans (by omega) (ih (58 * a + k))

/-- Helper: successful runs of `decode_loop` preserve the byte bound and
the scratch length. -/
theorem decode_loop_ok_bounds :
    ∀ (data scratch s' : List Nat),
      (∀ x ∈ scratch, x < 256) →
      decode_loop data scratch = some (.ok s') →
      (∀ x ∈ s', x < 256) ∧ s'.length = scratch.length := by
  intro data
  induction data with
  | nil =>
    intro scratch s' hb h
    simp only [decode_loop, Option.some.injEq, Except.ok.injEq] at h
    subst h
    exact ⟨hb, rfl⟩
  | cons c rest ih =>
    intro scratch s' hb h
    simp only [decode_loop] at h
    by_cases h128 : 128 ≤ c
    · rw [if_pos h128] at h
      simp at h
    · rw [if_neg h128] at h
      cases hdig : BASE58_DIGITS.getD c none with
      | none => rw [hdig] at h; simp at h
      | some d =>
        rw [hdig] at h
        simp only at h
        by_cases hc : (mulAddBE scratch d).1 = 0
        · rw [if_pos hc] at h
          obtain ⟨hlen, hbound, -⟩ := mulAddBE_spec scratch d
          obtain ⟨h1, h2⟩ := ih (mulAddBE scratch d).2 s' hbound h
          exact ⟨h1, h2.trans hlen⟩
        · rw [if_neg hc] at h
          simp at h

/-- Helper: the run of `decode_loop` on mapped digits, when the folded
value fits the scratch: no carry ever escapes (so the `assert` does not
fire) and the final scratch holds exactly the folded value. -/
theorem decode_loop_run :
    ∀ (ks scratch : List Nat),
      (∀ x ∈ scratch, x < 256) →
      (∀ k ∈ ks, k < 58) →
      ks.foldl (fun a k => 58 * a + k) (valBase 256 scratch) < 256 ^ scratch.length →
      ∃ s', decode_loop (ks.map (fun k => BASE58_CHARS.getD k 0)) scratch
          = some (.ok s')
        ∧ s'.length = scratch.length
        ∧ (∀ x ∈ s', x < 256)
        ∧ valBase 256 s'
            = ks.foldl (fun a k => 58 * a + k) (valBase 256 scratch) := by
  intro ks
  induction ks with
  | nil =>
    intro scratch hb _ _
    exact ⟨scratch, rfl, rfl, hb, rfl⟩
  | cons k rest ih =>
    intro scratch hb hk hfit
    have hk58 : k < 58 := hk k (by simp)
    have hchar := base58_chars_lt_128 k hk58
    have hinv := base58_digits_inv k hk58
    obtain ⟨hlen, hbound, hval⟩ := mulAddBE_spec scratch k
    have hstep : 58 * valBase 256 scratch + k < 256 ^ scratch.length := by
      refine lt_of_le_of_lt ?_ hfit
      simp only [List.foldl_cons]
      exact foldl58_le rest _
    have hcarry : (mulAddBE scratch k).1 = 0 := by
      by_contra hc
      have h1 : 1 ≤ (mulAddBE scratch k).1 := Nat.one_le_iff_ne_zero.mpr hc
      have hge : 256 ^ scratch.length ≤ 58 * valBase 256 scratch + k := by
        calc 256 ^ scratch.length = 1 * 256 ^ scratch.length := by ring
          _ ≤ (mulAddBE scratch k).1 * 256 ^ scratch.length :=
            Nat.mul_le_mul_right _ h1
          _ ≤ (mulAddBE scratch k).1 * 256 ^ scratch.length
              + valBase 256 (mulAddBE scratch k).2 := Nat.le_add_right _ _
          _ = 58 * valBase 256 scratch + k := hval
      exact absurd hstep (not_lt.mpr hge)
    have hval2 : valBase 256 (mulAddBE scratch k).2 = 58 * valBase 256 scratch + k := by
      rw [hcarry] at hval
      simpa using hval
    obtain ⟨s', hs1, hs2, hs3, hs4⟩ := ih (mulAddBE scratch k).2 hbound
      (fun y hy => hk y (by simp [hy]))
      (by rw [hval2, hlen]; simpa only [List.foldl_cons] using hfit)
    refine ⟨s', ?_, hs2.trans hlen, hs3, ?_⟩
    · simp only [List.map_cons, decode_loop]
      rw [if_neg (by omega), hinv]
      simp only
      rw [if_pos hcarry]
      exact hs1
    · rw [hs4, hval2]
      simp [List.foldl_cons]

/-- Helper: scratch capacity: `58 ^ n ≤ 256 ^ (1 + n * 11 / 15)` (the
ratio 11/15 is just over the base-256 logarithm of 58). -/
theorem pow58_le_pow256 : ∀ n : Nat, 58 ^ n ≤ 256 ^ (1 + n * 11 / 15) := by
  intro n
  induction n using Nat.strong_induction_on with
  | _ n ih =>
    by_cases h : n < 15
    · interval_cases n <;> decide
    · push_neg at h
      have hle := ih (n - 15) (by omega)
      calc 58 ^ n = 58 ^ (n - 15) * 58 ^ 15 := by
            rw [← pow_add]
            congr 1
            omega
        _ ≤ 256 ^ (1 + (n - 15) * 11 / 15) * 58 ^ 15 := Nat.mul_le_mul_right _ hle
        _ ≤ 256 ^ (1 + (n - 15) * 11 / 15) * 256 ^ 11 :=
            Nat.mul_le_mul_left _ (by decide)
        _ = 256 ^ (1 + (n - 15) * 11 / 15 + 11) := by rw [← pow_add]
        _ = 256 ^ (1 + n * 11 / 15) := by
            congr 1
            have h165 : n * 11 = (n - 15) * 11 + 15 * 11 := by omega
            rw [h165, Nat.add_mul_div_left _ _ (by norm_num : (0:Nat) < 15)]
            omega

/-- Helper: a value below `b ^ L` has at most `L` base-`b` digits. -/
theorem digits_len_le_of_lt (b V L : Nat) (hb : 1 < b) (h : V < b ^ L) :
    (Nat.digits b V).length ≤ L := by
  by_cases hV : V = 0
  · subst hV
    simp
  · by_contra hlen
    push_neg at hlen
    have h1 : b ^ (L + 1) ≤ b ^ (Nat.digits b V).length :=
      Nat.pow_le_pow_right (le_of_lt hb) hlen
    have h2 := Nat.base_pow_length_digits_le b V hb hV
    have h3 : b * b ^ L ≤ b * V := by
      calc b * b ^ L = b ^ (L + 1) := by ring
        _ ≤ b ^ (Nat.digits b V).length := h1
        _ ≤ b * V := h2
    have := Nat.le_of_mul_le_mul_left h3 (by omega : 0 < b)
    omega

/-- Helper: `takeWhile` passes through a satisfying replicate prefix. -/
theorem takeWhile_replicate_append (p : Nat → Bool) (c : Nat) (hp : p c = true) :
    ∀ (z : Nat) (l : List Nat),
      List.takeWhile p (List.replicate z c ++ l)
        = List.replicate z c ++ List.takeWhile p l := by
  intro z
  induction z with
  | zero => intro l; simp
  | succ z ih =>
    intro l
    rw [List.replicate_succ, List.cons_append, List.takeWhile_cons, if_pos hp, ih,
      List.cons_append]

/-- Helper: `dropWhile` consumes a satisfying replicate prefix. -/
theorem dropWhile_replicate_append (p : Nat → Bool) (c : Nat) (hp : p c = true) :
    ∀ (z : Nat) (l : List Nat),
      List.dropWhile p (List.replicate z c ++ l) = List.dropWhile p l := by
  intro z
  induction z with
  | zero => intro l; simp
  | succ z ih =>
    intro l
    rw [List.replicate_succ, List.cons_append, List.dropWhile_cons, if_pos hp, ih]

/-- Helper: the head of a nonempty reversed digit list (the most
significant digit) is nonzero. -/
theorem digits_reverse_head_ne_zero (b V a : Nat) (tl : List Nat)
    (h : (Nat.digits b V).reverse = a :: tl) : a ≠ 0 := by
  have hVne : V ≠ 0 := by
    intro hc
    rw [hc] at h
    simp at h
  have hdsne : Nat.digits b V ≠ [] := Nat.digits_ne_nil_iff_ne_zero.mpr hVne
  have hlast := Nat.getLast_digit_ne_zero b hVne
  have hh : (Nat.digits b V).getLast? = some a := by
    rw [← List.head?_reverse, h]
    rfl
  rw [List.getLast?_eq_getLast _ hdsne] at hh
  have ha := Option.some.inj hh
  intro hc
  apply hlast
  rw [ha, hc]

/-- Helper: the first element surviving a `dropWhile` fails the
predicate. -/
theorem dropWhile_eq_cons_pred_false {α : Type} (p : α → Bool) :
    ∀ (l : List α) (a : α) (tl : List α), l.dropWhile p = a :: tl → p a = false := by
  intro l
  induction l with
  | nil =>
    intro a tl h
    simp [List.dropWhile] at h
  | cons x xs ih =>
    intro a tl h
    rw [List.dropWhile_cons] at h
    by_cases hx : p x = true
    · rw [if_pos hx] at h
      exact ih a tl h
    · rw [if_neg hx] at h
      injection h with h1 _
      subst h1
      simpa using hx

/-- Helper: full decode-of-encode roundtrip on byte lists. -/
theorem decode_encode (d : List Nat) (hd : ∀ b ∈ d, b < 256) :
    decode (encode d) = some (.ok d) := by
  classical
  set z := (d.takeWhile (fun x => x == 0)).length with hz
  set V := valBase 256 d with hV
  set ds := Nat.digits 58 V with hds
  have henc : encode d
      = (List.replicate z 0 ++ ds.reverse).map (fun k => BASE58_CHARS.getD k 0) := by
    rw [encode_eq, List.map_append, List.map_replicate]
    rfl
  have hlen_enc : (encode d).length = z + ds.length := by
    rw [henc]
    simp
  have hds_lt : ∀ k ∈ List.replicate z 0 ++ ds.reverse, k < 58 := by
    intro k hk
    rcases List.mem_append.mp hk with h | h
    · have := List.eq_of_mem_replicate h
      omega
    · exact Nat.digits_lt_base (by norm_num) (List.mem_reverse.mp h)
  have hfold : (List.replicate z 0 ++ ds.reverse).foldl (fun a k => 58 * a + k) 0 = V := by
    show valBase 58 (List.replicate z 0 ++ ds.reverse) = V
    rw [valBase_replicate_zero_append, valBase_eq_ofDigits_reverse, List.reverse_reverse]
    exact Nat.ofDigits_digits 58 V
  have hVlt : V < 256 ^ (1 + (encode d).length * 11 / 15) := by
    have h1 : V < 58 ^ ds.length := Nat.lt_base_pow_length_digits (by norm_num)
    have h2 : (58:Nat) ^ ds.length ≤ 58 ^ (encode d).length :=
      Nat.pow_le_pow_right (by norm_num) (by omega)
    exact lt_of_lt_of_le h1 (le_trans h2 (pow58_le_pow256 (encode d).length))
  have hscr0 : ∀ x ∈ List.replicate (1 + (encode d).length * 11 / 15) 0, x < 256 := by
    intro x hx
    have := List.eq_of_mem_replicate hx
    omega
  have hval0 : valBase 256 (List.replicate (1 + (encode d).length * 11 / 15) 0) = 0 := by
    have := valBase_replicate_zero_append 256 (1 + (encode d).length * 11 / 15) []
    simpa using this
  obtain ⟨s', hs1, hs2, hs3, hs4⟩ :=
    decode_loop_run (List.replicate z 0 ++ ds.reverse)
      (List.replicate (1 + (encode d).length * 11 / 15) 0) hscr0 hds_lt
      (by rw [hval0, hfold, List.length_replicate]; exact hVlt)
  rw [hval0, hfold] at hs4
  rw [List.length_replicate] at hs2
  set bs := (Nat.digits 256 V).reverse with hbs
  have hbs_len : bs.length ≤ 1 + (encode d).length * 11 / 15 := by
    rw [hbs, List.length_reverse]
    exact digits_len_le_of_lt 256 V _ (by norm_num) hVlt
  have hbs_lt : ∀ x ∈ bs, x < 256 := by
    intro x hx
    exact Nat.digits_lt_base (by norm_num) (List.mem_reverse.mp hx)
  have hbs_val : valBase 256 bs = V := by
    rw [valBase_eq_ofDigits_reverse, hbs, List.reverse_reverse]
    exact Nat.ofDigits_digits 256 V
  have hpad : s'
      = List.replicate (1 + (encode d).length * 11 / 15 - bs.length) 0 ++ bs := by
    apply valBase_unique 256 (by norm_num)
    · rw [hs2]
      simp only [List.length_append, List.length_replicate]
      omega
    · exact hs3
    · intro x hx
      rcases List.mem_append.mp hx with h | h
      · have := List.eq_of_mem_replicate h
        omega
      · exact hbs_lt x h
    · rw [hs4, valBase_replicate_zero_append, hbs_val]
  have hdecloop : decode_loop (encode d)
      (List.replicate (1 + (encode d).length * 11 / 15) 0) = some (.ok s') := by
    rw [← henc] at hs1
    exact hs1
  have hdw_bs : List.dropWhile (fun x => x == 0) bs = bs := by
    cases hb : bs with
    | nil => rfl
    | cons a tl =>
      have hane : a ≠ 0 := digits_reverse_head_ne_zero 256 V a tl (by rw [← hbs, hb])
      rw [List.dropWhile_cons, if_neg (by simpa using hane)]
  have hd_take : d.takeWhile (fun x => x == 0) = List.replicate z 0 := by
    rw [List.eq_replicate_iff]
    refine ⟨rfl, fun b hb0 => ?_⟩
    have := List.mem_takeWhile_imp hb0
    simpa using this
  have hd_split : d = List.replicate z 0 ++ d.dropWhile (fun x => x == 0) := by
    conv_lhs => rw [← List.takeWhile_append_dropWhile (fun x => x == 0) d]
    rw [hd_take]
  have hsig_eq : bs = d.dropWhile (fun x => x == 0) := by
    have hV_sig : V = valBase 256 (d.dropWhile (fun x => x == 0)) := by
      conv_lhs => rw [hV, hd_split]
      rw [valBase_replicate_zero_append]
    cases hsig0 : d.dropWhile (fun x => x == 0) with
    | nil =>
      have : V = 0 := by
        rw [hV_sig, hsig0]
        rfl
      rw [hbs, this]
      simp
    | cons a tl =>
      have hane : a ≠ 0 := by
        have := dropWhile_eq_cons_pred_false (fun x => x == 0) d a tl hsig0
        simpa using this
      have hsig_lt : ∀ x ∈ d.dropWhile (fun x => x == 0), x < 256 := fun x hx =>
        hd x ((List.dropWhile_sublist (fun x => x == 0)).subset hx)
      have hdig : Nat.digits 256 V = (d.dropWhile (fun x => x == 0)).reverse := by
        rw [hV_sig, valBase_eq_ofDigits_reverse]
        apply Nat.digits_ofDigits 256 (by norm_num)
        · intro l hl
          exact hsig_lt l (List.mem_reverse.mp hl)
        · intro hne
          have h1 : (List.dropWhile (fun x => x == 0) d).reverse.getLast? = some a := by
            rw [List.getLast?_reverse, hsig0]
            rfl
          rw [List.getLast?_eq_getLast _ hne] at h1
          have h2 := Option.some.inj h1
          rw [h2]
          exact hane
      rw [hbs, hdig, List.reverse_reverse, hsig0]
  have htw : (encode d).takeWhile (fun x => x == 49) = List.replicate z 49 := by
    rw [henc, List.map_append, List.map_replicate]
    have h49 : BASE58_CHARS.getD 0 0 = 49 := rfl
    rw [h49, takeWhile_replicate_append (fun x => x == 49) 49 rfl]
    suffices hsf : List.takeWhile (fun x => x == 49)
        ((ds.reverse).map fun k => BASE58_CHARS.getD k 0) = [] by
      rw [hsf, List.append_nil]
    cases hrev : ds.reverse with
    | nil => simp
    | cons a tl =>
      have ha_mem : a ∈ ds := by
        rw [← List.mem_reverse, hrev]
        simp
      have ha58 : a < 58 := Nat.digits_lt_base (by norm_num) ha_mem
      have hane : a ≠ 0 := by
        refine digits_reverse_head_ne_zero 58 V a tl ?_
        rw [← hds]
        exact hrev
      simp only [List.map_cons, List.takeWhile_cons]
      rw [if_neg (by simpa using base58_char_ne_49 a ha58 hane)]
  unfold decode
  rw [hdecloop]
  show some (Except.ok (((encode d).takeWhile (fun x => x == 49)).map (fun _ => 0)
      ++ s'.dropWhile (fun x => x == 0))) = some (Except.ok d)
  rw [htw, hpad, List.map_replicate,
    dropWhile_replicate_append (fun x => x == 0) 0 rfl, hdw_bs, hsig_eq]
  rw [← hd_split]

/-- Helper: `decode_check` after a successful inner `decode`. -/
theorem decode_check_of_ok (sha : List Nat → List Nat) (s r : List Nat)
    (h : decode s = some (.ok r)) :
    decode_check sha s = decode_check_tail sha r := by
  unfold decode_check
  rw [h]

/-- Helper: the bytes of a successful `decode` are below 256. -/
theorem decode_ok_bounds (s r : List Nat) (h : decode s = some (.ok r)) :
    ∀ x ∈ r, x < 256 := by
  unfold decode at h
  cases hdl : decode_loop s (List.replicate (1 + s.length * 11 / 15) 0) with
  | none =>
    rw [hdl] at h
    simp at h
  | some e =>
    rw [hdl] at h
    cases e with
    | error e2 => simp at h
    | ok scratch =>
      simp only [Option.some.injEq, Except.ok.injEq] at h
      subst h
      obtain ⟨hbound, -⟩ := decode_loop_ok_bounds s _ scratch
        (fun x hx => by have := List.eq_of_mem_replicate hx; omega) hdl
      intro x hx
      rcases List.mem_append.mp hx with h1 | h1
      · obtain ⟨-, -, h2⟩ := List.mem_map.mp h1
        omega
      · exact hbound x ((List.dropWhile_sublist _).subset h1)

/-- Helper: `ofDigits` is injective on equal-length byte lists. -/
theorem ofDigits_inj_of_len_eq :
    ∀ l1 l2 : List Nat, l1.length = l2.length →
      (∀ x ∈ l1, x < 256) → (∀ x ∈ l2, x < 256) →
      Nat.ofDigits 256 l1 = Nat.ofDigits 256 l2 → l1 = l2 := by
  intro l1
  induction l1 with
  | nil =>
    intro l2 hlen _ _ _
    cases l2 with
    | nil => rfl
    | cons => simp at hlen
  | cons x1 t1 ih =>
    intro l2 hlen h1 h2 hv
    cases l2 with
    | nil => simp at hlen
    | cons x2 t2 =>
      simp only [List.length_cons, Nat.add_left_inj] at hlen
      rw [Nat.ofDigits_cons, Nat.ofDigits_cons] at hv
      have hx1 : x1 < 256 := h1 x1 (by simp)
      have hx2 : x2 < 256 := h2 x2 (by simp)
      have hcast : x1 + 256 * Nat.ofDigits 256 t1 = x2 + 256 * Nat.ofDigits 256 t2 := by
        exact_mod_cast hv
      have hx : x1 = x2 ∧ Nat.ofDigits 256 t1 = Nat.ofDigits 256 t2 := by omega
      rw [hx.1, ih t2 hlen (fun y hy => h1 y (by simp [hy]))
        (fun y hy => h2 y (by simp [hy])) hx.2]

/-- Helper: roundtrip of `encode_check`/`decode_check`. -/
theorem decode_check_encode_check (sha : List Nat → List Nat)
    (h32 : ∀ x, (sha x).length = 32)
    (hbs : ∀ x, ∀ b ∈ sha x, b < 256)
    (d : List Nat) (hd : ∀ b ∈ d, b < 256) :
    decode_check sha (encode_check sha d) = some (.ok d) := by
  have hd2 : ∀ b ∈ d ++ (sha (sha d)).take 4, b < 256 := by
    intro b hb
    rcases List.mem_append.mp hb with h | h
    · exact hd b h
    · exact hbs (sha d) b (List.mem_of_mem_take h)
  have hdec := decode_encode (d ++ (sha (sha d)).take 4) hd2
  rw [encode_check, decode_check_of_ok sha _ _ hdec]
  unfold decode_check_tail
  have hlen4 : ((sha (sha d)).take 4).length = 4 := by
    rw [List.length_take, h32]
    rfl
  have hlen : (d ++ (sha (sha d)).take 4).length = d.length + 4 := by
    simp [hlen4]
  rw [if_neg (by omega)]
  have hsub : (d ++ (sha (sha d)).take 4).length - 4 = d.length := by omega
  have htake : (d ++ (sha (sha d)).take 4).take
      ((d ++ (sha (sha d)).take 4).length - 4) = d := by
    rw [hsub]
    exact List.take_left d _
  have hdrop : (d ++ (sha (sha d)).take 4).drop
      ((d ++ (sha (sha d)).take 4).length - 4) = (sha (sha d)).take 4 := by
    rw [hsub]
    exact List.drop_left d _
  rw [htake, hdrop]
  rw [if_pos ⟨hlen4, hlen4⟩]
  rw [if_neg (fun hc => hc rfl)]

/-- Helper: the `TooShort` branch of `decode_check`. -/
theorem decode_check_too_short (sha : List Nat → List Nat) (s r : List Nat)
    (h : decode s = some (.ok r)) (hlen : r.length < 4) :
    decode_check sha s = some (.error (.TooShort r.length)) := by
  rw [decode_check_of_ok sha _ _ h]
  unfold decode_check_tail
  rw [if_pos hlen]

/-- Helper: the `BadChecksum` branch of `decode_check`. -/
theorem decode_check_bad_checksum (sha : List Nat → List Nat) (s r : List Nat)
    (h32 : ∀ x, (sha x).length = 32)
    (hbs : ∀ x, ∀ b ∈ sha x, b < 256)
    (h : decode s = some (.ok r)) (hlen : 4 ≤ r.length)
    (hne : r.drop (r.length - 4) ≠ (sha (sha (r.take (r.length - 4)))).take 4) :
    decode_check sha s = some (.error (.BadChecksum
      (from_le_bytes ((sha (sha (r.take (r.length - 4)))).take 4))
      (from_le_bytes (r.drop (r.length - 4))))) := by
  rw [decode_check_of_ok sha _ _ h]
  unfold decode_check_tail
  rw [if_neg (by omega)]
  have hlen1 : ((sha (sha (r.take (r.length - 4)))).take 4).length = 4 := by
    rw [List.length_take, h32]
    rfl
  have hlen2 : (r.drop (r.length - 4)).length = 4 := by
    rw [List.length_drop]
    omega
  rw [if_pos ⟨hlen1, hlen2⟩]
  rw [if_pos ?hq]
  case hq =>
    intro hc
    apply hne
    refine (ofDigits_inj_of_len_eq _ _ (by rw [hlen2, hlen1]) ?_ ?_ hc.symm)
    · intro x hx
      exact decode_ok_bounds s r h x ((List.drop_sublist _ _).subset hx)
    · intro x hx
      exact hbs _ x (List.mem_of_mem_take hx)

/-- C9: base58 `decode` inverts `encode` on every byte list, and
`decode_check` inverts `encode_check` for every 32-byte-output hash
function; `decode_check` fails with `TooShort` exactly when the decoded
payload is shorter than four bytes, and with `BadChecksum` (carrying the
expected and actual little-endian u32 values) whenever the trailing four
bytes differ from the first four bytes of the double hash of the
remaining payload. -/
theorem c9_base58_roundtrip_and_checks :
    (∀ d : List Nat, (∀ b ∈ d, b < 256) → decode (encode d) = some (.ok d))
    ∧ (∀ sha : List Nat → List Nat, (∀ x, (sha x).length = 32) →
        (∀ x, ∀ b ∈ sha x, b < 256) →
        ∀ d : List Nat, (∀ b ∈ d, b < 256) →
          decode_check sha (encode_check sha d) = some (.ok d))
    ∧ (∀ (sha : List Nat → List Nat) (s r : List Nat),
        decode s = some (.ok r) → r.length < 4 →
        decode_check sha s = some (.error (.TooShort r.length)))
    ∧ (∀ (sha : List Nat → List Nat) (s r : List Nat),
        (∀ x, (sha x).length = 32) → (∀ x, ∀ b ∈ sha x, b < 256) →
        decode s = some (.ok r) → 4 ≤ r.length →
        r.drop (r.length - 4) ≠ (sha (sha (r.take (r.length - 4)))).take 4 →
        decode_check sha s = some (.error (.BadChecksum
          (from_le_bytes ((sha (sha (r.take (r.length - 4)))).take 4))
          (from_le_bytes (r.drop (r.length - 4)))))) :=
  ⟨decode_encode,
   fun sha h32 hbs d hd => decode_check_encode_check sha h32 hbs d hd,
   fun sha s r h hlen => decode_check_too_short sha s r h hlen,
   fun sha s r h32 hbs h hlen hne =>
     decode_check_bad_checksum sha s r h32 hbs h hlen hne⟩

/-- C9 witness: the four branches instantiated at concrete inputs with
the constant 32-byte hash function. -/
theorem c9_witness_concrete :
    decode (encode [0, 7, 255]) = some (.ok [0, 7, 255])
    ∧ decode_check (fun _ => List.replicate 32 1)
        (encode_check (fun _ => List.replicate 32 1) [0, 200, 3])
      = some (.ok [0, 200, 3])
    ∧ decode_check (fun _ => List.replicate 32 1) [] = some (.error (.TooShort 0))
    ∧ decode_check (fun _ => List.replicate 32 1) [49, 49, 49, 49]
      = some (.error (.BadChecksum 16843009 0)) := by
  refine ⟨c9_base58_roundtrip_and_checks.1 [0, 7, 255] (by decide),
    c9_base58_roundtrip_and_checks.2.1 (fun _ => List.replicate 32 1)
      (fun _ => rfl)
      (fun x b hb => by
        have := List.eq_of_mem_replicate hb
        omega)
      [0, 200, 3] (by decide),
    ?_, ?_⟩
  · exact c9_base58_roundtrip_and_checks.2.2.1 (fun _ => List.replicate 32 1)
      [] [] (by rfl) (by norm_num)
  · have h := c9_base58_roundtrip_and_checks.2.2.2 (fun _ => List.replicate 32 1)
      [49, 49, 49, 49] [0, 0, 0, 0] (fun _ => rfl)
      (fun x b hb => by
        have := List.eq_of_mem_replicate hb
        omega)
      (by rfl) (by norm_num) (by decide)
    exact h.trans (by rfl)

end BpStd

